import Mathlib

/-!
# Verification of `encrypt_openrouter.py`

A shallow embedding of the one-shot encryption script `src/encrypt_openrouter.py`.
Bytes are modelled as natural numbers below 256 (`List Nat` with a `validB`
side condition).  The script's pipeline is:

* `key_bytes`   — SHA-256 of the UTF-8 encoded passphrase (line 18),
* `iv`          — 16 random bytes (line 21), modelled as an explicit input,
* `padded_plaintext` — PKCS#7-style padding to a multiple of 16 (lines 34-36),
* `encrypted`   — AES-256-CBC encryption (lines 24-38); the AES block
  permutation itself lives in the `cryptography` library, so it is kept
  abstract as a keyed block function parameter `aes`,
* `combined` / `encrypted_base64` — IV ‖ ciphertext, base64 encoded (lines 41-44),
* `scriptOutput` — the printed SQL text (lines 46-60).

SHA-256, UTF-8 and base64 are implemented concretely below.
-/

/-- A byte list is valid when every entry fits in one byte. -/
def validB (l : List Nat) : Prop := ∀ x ∈ l, x < 256

instance (l : List Nat) : Decidable (validB l) :=
  List.decidableBAll _ l

/-- UTF-8 encoding of a single character, as Python's `str.encode()` does per
code point. -/
def utf8EncodeChar (c : Char) : List Nat :=
  let n := c.toNat
  if n < 128 then [n]
  else if n < 2048 then [192 + n / 64, 128 + n % 64]
  else if n < 65536 then [224 + n / 4096, 128 + n / 64 % 64, 128 + n % 64]
  else [240 + n / 262144, 128 + n / 4096 % 64, 128 + n / 64 % 64, 128 + n % 64]

/-- UTF-8 bytes of a string: Python's `s.encode()`. -/
def strBytes (s : String) : List Nat := (s.data.map utf8EncodeChar).flatten

/-! ## SHA-256 (`hashlib.sha256`) -/

/-- Truncate to a 32-bit word. -/
def w32 (n : Nat) : Nat := n % 4294967296

/-- Rotate a 32-bit word right by `k`. -/
def rotr32 (k x : Nat) : Nat := w32 ((x >>> k) ||| (x <<< (32 - k)))

/-- SHA-256 choice function. -/
def shaCh (e f g : Nat) : Nat := (e &&& f) ^^^ ((e ^^^ 4294967295) &&& g)

/-- SHA-256 majority function. -/
def shaMaj (a b c : Nat) : Nat := (a &&& b) ^^^ (a &&& c) ^^^ (b &&& c)

/-- SHA-256 big sigma 0. -/
def bigS0 (x : Nat) : Nat := rotr32 2 x ^^^ rotr32 13 x ^^^ rotr32 22 x

/-- SHA-256 big sigma 1. -/
def bigS1 (x : Nat) : Nat := rotr32 6 x ^^^ rotr32 11 x ^^^ rotr32 25 x

/-- SHA-256 small sigma 0. -/
def smallS0 (x : Nat) : Nat := rotr32 7 x ^^^ rotr32 18 x ^^^ (x >>> 3)

/-- SHA-256 small sigma 1. -/
def smallS1 (x : Nat) : Nat := rotr32 17 x ^^^ rotr32 19 x ^^^ (x >>> 10)

/-- SHA-256 round constants (decimal). -/
def K256 : List Nat :=
  [1116352408, 1899447441, 3049323471, 3921009573, 961987163,
   1508970993, 2453635748, 2870763221, 3624381080, 310598401,
   607225278, 1426881987, 1925078388, 2162078206, 2614888103,
   3248222580, 3835390401, 4022224774, 264347078, 604807628,
   770255983, 1249150122, 1555081692, 1996064986, 2554220882,
   2821834349, 2952996808, 3210313671, 3336571891, 3584528711,
   113926993, 338241895, 666307205, 773529912, 1294757372,
   1396182291, 1695183700, 1986661051, 2177026350, 2456956037,
   2730485921, 2820302411, 3259730800, 3345764771, 3516065817,
   3600352804, 4094571909, 275423344, 430227734, 506948616,
   659060556, 883997877, 958139571, 1322822218, 1537002063,
   1747873779, 1955562222, 2024104815, 2227730452, 2361852424,
   2428436474, 2756734187, 3204031479, 3329325298]

/-- SHA-256 working state: eight 32-bit registers. -/
structure Hash8 where
  a : Nat
  b : Nat
  c : Nat
  d : Nat
  e : Nat
  f : Nat
  g : Nat
  h : Nat

/-- SHA-256 initial hash value (decimal). -/
def initH : Hash8 :=
  ⟨1779033703, 3144134277, 1013904242, 2773480762,
   1359893119, 2600822924, 528734635, 1541459225⟩

/-- The `k` bytes of `n` in big-endian order. -/
def beBytes : Nat → Nat → List Nat
  | 0, _ => []
  | k + 1, n => beBytes k (n / 256) ++ [n % 256]

/-- Big-endian 32-bit word from four bytes. -/
def beWord (a b c d : Nat) : Nat := ((a * 256 + b) * 256 + c) * 256 + d

/-- Group a byte list into big-endian 32-bit words. -/
def bytesToWords : List Nat → List Nat
  | a :: b :: c :: d :: rest => beWord a b c d :: bytesToWords rest
  | _ => []

/-- Split a byte list into 64-byte chunks, with fuel to make the recursion
structural (the fuel is the list length, which always suffices since every
step consumes at least one element). -/
def chunksFuel : Nat → List Nat → List (List Nat)
  | 0, _ => []
  | _, [] => []
  | fuel + 1, a :: rest => ((a :: rest).take 64) :: chunksFuel fuel ((a :: rest).drop 64)

/-- Split a byte list into 64-byte chunks (the last one possibly shorter). -/
def chunks64 (l : List Nat) : List (List Nat) := chunksFuel l.length l

/-- SHA-256 message padding: `0x80`, zeros, then the 64-bit big-endian bit
length, reaching a multiple of 64 bytes. -/
def shaPad (msg : List Nat) : List Nat :=
  msg ++ [128] ++ List.replicate ((119 - msg.length % 64) % 64) 0 ++ beBytes 8 (8 * msg.length)

/-- One message-schedule extension step: append word `W[i]` for `i = ws.length`. -/
def extendStep (ws : List Nat) (_ : Nat) : List Nat :=
  let i := ws.length
  ws ++ [w32 (smallS1 (ws.getD (i - 2) 0) + ws.getD (i - 7) 0 +
              smallS0 (ws.getD (i - 15) 0) + ws.getD (i - 16) 0)]

/-- Full 64-word message schedule of a 64-byte chunk. -/
def scheduleW (chunk : List Nat) : List Nat :=
  (List.range 48).foldl extendStep (bytesToWords chunk)

/-- One SHA-256 compression round. -/
def shaRound (st : Hash8) (kw : Nat × Nat) : Hash8 :=
  let t1 := w32 (st.h + bigS1 st.e + shaCh st.e st.f st.g + kw.1 + kw.2)
  let t2 := w32 (bigS0 st.a + shaMaj st.a st.b st.c)
  ⟨w32 (t1 + t2), st.a, st.b, st.c, w32 (st.d + t1), st.e, st.f, st.g⟩

/-- Process one 64-byte chunk. -/
def processChunk (st : Hash8) (chunk : List Nat) : Hash8 :=
  let ws := scheduleW chunk
  let r := (K256.zip ws).foldl shaRound st
  ⟨w32 (st.a + r.a), w32 (st.b + r.b), w32 (st.c + r.c), w32 (st.d + r.d),
   w32 (st.e + r.e), w32 (st.f + r.f), w32 (st.g + r.g), w32 (st.h + r.h)⟩

/-- SHA-256 digest of a byte list (`hashlib.sha256(...).digest()`). -/
def sha256 (msg : List Nat) : List Nat :=
  let fin := (chunks64 (shaPad msg)).foldl processChunk initH
  beBytes 4 fin.a ++ beBytes 4 fin.b ++ beBytes 4 fin.c ++ beBytes 4 fin.d ++
  beBytes 4 fin.e ++ beBytes 4 fin.f ++ beBytes 4 fin.g ++ beBytes 4 fin.h

/-! ## Base64 (`base64.b64encode`) -/

/-- The base64 alphabet. -/
def b64Table : List Char :=
  "ABCDEFGHIJKLMNOPQRSTUVWXYZabcdefghijklmnopqrstuvwxyz0123456789+/".data

/-- The base64 padding character. -/
def eqChar : Char := '='

/-- A single quote character (for the SQL-literal safety statement). -/
def squote : Char := Char.ofNat 39

/-- Encode one 6-bit value as a base64 character. -/
def b64EncChar (n : Nat) : Char := b64Table.getD n 'A'

/-- Decode one base64 character to its 6-bit value. -/
def b64DecChar (c : Char) : Nat := b64Table.indexOf c

/-- Standard base64 encoding of a byte list, with `=` padding. -/
def b64Encode : List Nat → List Char
  | a :: b :: c :: rest =>
    b64EncChar (a / 4) :: b64EncChar (a % 4 * 16 + b / 16) ::
    b64EncChar (b % 16 * 4 + c / 64) :: b64EncChar (c % 64) :: b64Encode rest
  | [a, b] => [b64EncChar (a / 4), b64EncChar (a % 4 * 16 + b / 16), b64EncChar (b % 16 * 4), eqChar]
  | [a] => [b64EncChar (a / 4), b64EncChar (a % 4 * 16), eqChar, eqChar]
  | [] => []

/-- Standard base64 decoding of a character list. -/
def b64Decode : List Char → List Nat
  | c0 :: c1 :: c2 :: c3 :: rest =>
    let v0 := b64DecChar c0
    let v1 := b64DecChar c1
    if c2 = eqChar then [v0 * 4 + v1 / 16]
    else
      let v2 := b64DecChar c2
      if c3 = eqChar then [v0 * 4 + v1 / 16, v1 % 16 * 16 + v2 / 4]
      else (v0 * 4 + v1 / 16) :: (v1 % 16 * 16 + v2 / 4) ::
           (v2 % 4 * 64 + b64DecChar c3) :: b64Decode rest
  | _ => []

/-! ## CBC mode (`modes.CBC`) over an abstract block function -/

/-- Bytewise XOR of two equal-length byte lists. -/
def xorBytes (a b : List Nat) : List Nat := List.zipWith (fun x y => x ^^^ y) a b

/-- Split a byte list into 16-byte blocks. -/
def toBlocks16 : List Nat → List (List Nat)
  | [] => []
  | a :: rest => ((a :: rest).take 16) :: toBlocks16 ((a :: rest).drop 16)
termination_by l => l.length
decreasing_by simp; omega

/-- CBC encryption of a block list: each plaintext block is XOR-ed with the
previous ciphertext block (initially the IV) before the block function `E`. -/
def cbcEnc (E : List Nat → List Nat) (prev : List Nat) : List (List Nat) → List (List Nat)
  | [] => []
  | b :: bs =>
    let c := E (xorBytes prev b)
    c :: cbcEnc E c bs

/-- CBC decryption of a block list with block inverse `D`. -/
def cbcDec (D : List Nat → List Nat) (prev : List Nat) : List (List Nat) → List (List Nat)
  | [] => []
  | c :: cs => xorBytes prev (D c) :: cbcDec D c cs

/-! ## The script's pipeline (lines 12-44 of `encrypt_openrouter.py`) -/

/-- The plaintext constant of line 12. -/
def OPENROUTER_KEY : String :=
  "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"

/-- The passphrase constant of line 15. -/
def SECRET : String := "notebook_llm_global_secret_key_2024"

/-- Line 18: `key_bytes = hashlib.sha256(SECRET.encode()).digest()`, with the
passphrase generalised to a parameter. -/
def key_bytes (secret : String) : List Nat := sha256 (strBytes secret)

/-- Line 35: `padding_length = 16 - (len(plaintext) % 16)`. -/
def padding_length (pt : List Nat) : Nat := 16 - pt.length % 16

/-- Line 36: `padded_plaintext = plaintext + bytes([padding_length] * padding_length)`. -/
def padded_plaintext (pt : List Nat) : List Nat :=
  pt ++ List.replicate (padding_length pt) (padding_length pt)

/-- Line 38: the ciphertext bytes.  `E` is the AES block permutation already
keyed (the `cryptography` library primitive, kept abstract). -/
def encrypted (E : List Nat → List Nat) (iv pt : List Nat) : List Nat :=
  (cbcEnc E iv (toBlocks16 (padded_plaintext pt))).flatten

/-- Line 41: `combined = iv + encrypted`. -/
def combined (E : List Nat → List Nat) (iv pt : List Nat) : List Nat :=
  iv ++ encrypted E iv pt

/-- Line 44: `encrypted_base64 = base64.b64encode(combined).decode()`, keyed by
the SHA-256 of the passphrase.  `aes` maps a key and a 16-byte block to a
16-byte block. -/
def encrypted_base64 (aes : List Nat → List Nat → List Nat) (secret : String)
    (iv pt : List Nat) : List Char :=
  b64Encode (combined (aes (key_bytes secret)) iv pt)

/-! ## The cooperating decryptor -/

/-- Modelled from the spec: removal of PKCS#7 padding by the cooperating
decryptor (no decryptor exists in `src/`; §4.1's contract and the glossary
describe it: read the last byte `n`, check the final `n` bytes all equal `n`,
drop them). -/
def unpad16 (padded : List Nat) : Option (List Nat) :=
  match padded.getLast? with
  | none => none
  | some n =>
    if 1 ≤ n ∧ n ≤ 16 ∧ n ≤ padded.length ∧
        (padded.drop (padded.length - n)).all (fun x => x == n) then
      some (padded.take (padded.length - n))
    else none

/-- Modelled from the spec: the cooperating decryptor of §4.1's contract
(absent from `src/`): base64-decode the bundle, split off the 16-byte IV,
CBC-decrypt with the key derived from the same passphrase, remove padding.
`aesInv` is the inverse AES block permutation. -/
def decryptPipeline (aesInv : List Nat → List Nat → List Nat) (secret : String)
    (bundle : List Char) : Option (List Nat) :=
  let bytes := b64Decode bundle
  let iv := bytes.take 16
  let ct := bytes.drop 16
  unpad16 ((cbcDec (aesInv (key_bytes secret)) iv (toBlocks16 ct)).flatten)

/-! ## The printed output (lines 46-60) -/

/-- The `"=" * 60` banner line. -/
def bannerLine : String := String.mk (List.replicate 60 '=')

/-- The lines printed by the script, as a function of the base64 ciphertext
(lines 46-60; empty `print()` calls become empty lines). -/
def scriptOutput (b64 : String) : List String :=
  [bannerLine,
   "ENCRYPTED OPENROUTER API KEY",
   bannerLine,
   "",
   "Run this SQL in Neon Console:",
   "",
   "INSERT INTO api_keys (service_name, encrypted_value, description, updated_at)",
   "VALUES ('openrouter', '" ++ b64 ++ "', 'OpenRouter API Key', CURRENT_TIMESTAMP)",
   "ON CONFLICT (service_name)",
   "DO UPDATE SET encrypted_value = EXCLUDED.encrypted_value, updated_at = CURRENT_TIMESTAMP;",
   "",
   bannerLine,
   "Verify with:",
   "SELECT service_name, description, updated_at FROM api_keys;",
   bannerLine]

/-- A concrete keyed involution on byte lists, standing in for the AES block
permutation when instantiating the abstract theorems. -/
def revCipher : List Nat → List Nat → List Nat := fun _ b => b.reverse

/-! ## Helper lemmas -/

theorem beBytes_length (k n : Nat) : (beBytes k n).length = k := by
  induction k generalizing n with
  | zero => rfl
  | succ m ih => simp [beBytes, ih]

theorem beBytes_valid (k n : Nat) : validB (beBytes k n) := by
  induction k generalizing n with
  | zero => intro x hx; simp [beBytes] at hx
  | succ m ih =>
    intro x hx
    simp only [beBytes, List.mem_append, List.mem_singleton] at hx
    rcases hx with hx | hx
    · exact ih (n / 256) x hx
    · subst hx; omega

theorem sha256_length (msg : List Nat) : (sha256 msg).length = 32 := by
  simp [sha256, beBytes_length]

theorem sha256_valid (msg : List Nat) : validB (sha256 msg) := by
  intro x hx
  simp only [sha256, List.mem_append] at hx
  rcases hx with ((((((h | h) | h) | h) | h) | h) | h) | h <;> exact beBytes_valid 4 _ x h

theorem char_toNat_lt (c : Char) : c.toNat < 1114112 := by
  have h := c.valid
  have h2 : c.toNat = c.val.toNat := rfl
  rcases h with h | h <;> omega

theorem utf8EncodeChar_valid (c : Char) : validB (utf8EncodeChar c) := by
  have hc := char_toNat_lt c
  intro x hx
  simp only [utf8EncodeChar] at hx
  split at hx
  · simp at hx; omega
  · split at hx
    · simp at hx; rcases hx with h | h <;> omega
    · split at hx
      · simp at hx; rcases hx with h | h | h <;> omega
      · simp at hx; rcases hx with h | h | h | h <;> omega

theorem strBytes_valid (s : String) : validB (strBytes s) := by
  intro x hx
  simp only [strBytes, List.mem_flatten, List.mem_map] at hx
  obtain ⟨l, ⟨c, _, hcl⟩, hxl⟩ := hx
  exact utf8EncodeChar_valid c x (hcl ▸ hxl)

theorem key_bytes_length (secret : String) : (key_bytes secret).length = 32 :=
  sha256_length _

theorem xorBytes_length (a b : List Nat) : (xorBytes a b).length = min a.length b.length := by
  simp [xorBytes]

theorem xorBytes_valid (a : List Nat) :
    ∀ (b : List Nat), validB a → validB b → validB (xorBytes a b) := by
  induction a with
  | nil => intro b _ _ x hx; simp [xorBytes] at hx
  | cons x xs ih =>
    intro b ha hb
    cases b with
    | nil => intro z hz; simp [xorBytes] at hz
    | cons y ys =>
      intro z hz
      simp only [xorBytes, List.zipWith_cons_cons, List.mem_cons] at hz
      rcases hz with hz | hz
      · subst hz
        have hx : x < 256 := ha x (List.mem_cons_self x xs)
        have hy : y < 256 := hb y (List.mem_cons_self y ys)
        have : x ^^^ y < 2 ^ 8 := Nat.xor_lt_two_pow hx hy
        omega
      · exact ih ys (fun u hu => ha u (List.mem_cons_of_mem x hu))
          (fun u hu => hb u (List.mem_cons_of_mem y hu)) z hz

theorem xorBytes_cancel (a : List Nat) :
    ∀ (b : List Nat), a.length = b.length → xorBytes a (xorBytes a b) = b := by
  induction a with
  | nil => intro b h; cases b with | nil => rfl | cons y ys => simp at h
  | cons x xs ih =>
    intro b h
    cases b with
    | nil => simp at h
    | cons y ys =>
      have hstep : xorBytes (x :: xs) (xorBytes (x :: xs) (y :: ys))
          = (x ^^^ (x ^^^ y)) :: xorBytes xs (xorBytes xs ys) := rfl
      rw [hstep, Nat.xor_cancel_left, ih ys (by simpa using h)]

theorem getLast?_append_replicate (l : List Nat) (k x : Nat) :
    (l ++ List.replicate (k + 1) x).getLast? = some x := by
  rw [List.getLast?_append_of_ne_nil l (by simp), List.replicate_succ', List.getLast?_concat]

theorem toBlocks16_ne_nil (l : List Nat) (h : l ≠ []) :
    toBlocks16 l = l.take 16 :: toBlocks16 (l.drop 16) := by
  cases l with
  | nil => exact absurd rfl h
  | cons a rest => rw [toBlocks16]

theorem toBlocks16_flatten (l : List Nat) : (toBlocks16 l).flatten = l := by
  induction l using toBlocks16.induct with
  | case1 => simp [toBlocks16]
  | case2 a rest ih => rw [toBlocks16, List.flatten_cons, ih, List.take_append_drop]

theorem toBlocks16_length (l : List Nat) (h : l.length % 16 = 0) :
    ∀ b ∈ toBlocks16 l, b.length = 16 := by
  induction l using toBlocks16.induct with
  | case1 => simp [toBlocks16]
  | case2 a rest ih =>
    have hl : (a :: rest).length = rest.length + 1 := by simp
    have h16 : 16 ≤ (a :: rest).length := by omega
    rw [toBlocks16]
    intro b hb
    rcases List.mem_cons.1 hb with h1 | h2
    · subst h1; rw [List.length_take]; omega
    · exact ih (by rw [List.length_drop]; omega) b h2

theorem toBlocks16_valid (l : List Nat) (h : validB l) :
    ∀ b ∈ toBlocks16 l, validB b := by
  induction l using toBlocks16.induct with
  | case1 => simp [toBlocks16]
  | case2 a rest ih =>
    rw [toBlocks16]
    intro b hb
    rcases List.mem_cons.1 hb with h1 | h2
    · subst h1; exact fun x hx => h x (List.mem_of_mem_take hx)
    · exact ih (fun x hx => h x (List.mem_of_mem_drop hx)) b h2

theorem toBlocks16_flatten_inv (bs : List (List Nat)) (h : ∀ b ∈ bs, b.length = 16) :
    toBlocks16 bs.flatten = bs := by
  induction bs with
  | nil => simp [toBlocks16]
  | cons b rest ih =>
    have hb : b.length = 16 := h b (List.mem_cons_self b rest)
    have hne : b ++ rest.flatten ≠ [] := by
      intro hc
      have : b = [] := List.append_eq_nil.1 hc |>.1
      simp [this] at hb
    rw [List.flatten_cons, toBlocks16_ne_nil _ hne, List.take_left' hb, List.drop_left' hb,
      ih (fun x hx => h x (List.mem_cons_of_mem b hx))]

theorem padding_length_pos (pt : List Nat) : 1 ≤ padding_length pt ∧ padding_length pt ≤ 16 := by
  have : pt.length % 16 < 16 := Nat.mod_lt _ (by omega)
  simp only [padding_length]
  omega

theorem padded_plaintext_length (pt : List Nat) :
    (padded_plaintext pt).length = pt.length + padding_length pt := by
  simp [padded_plaintext]

theorem padded_plaintext_mod (pt : List Nat) : (padded_plaintext pt).length % 16 = 0 := by
  rw [padded_plaintext_length]
  have : pt.length % 16 < 16 := Nat.mod_lt _ (by omega)
  simp only [padding_length]
  omega

theorem padded_plaintext_valid (pt : List Nat) (h : validB pt) :
    validB (padded_plaintext pt) := by
  intro x hx
  rcases List.mem_append.1 hx with hx | hx
  · exact h x hx
  · have := List.eq_of_mem_replicate hx
    have hp := padding_length_pos pt
    omega

theorem unpad16_padded (pt : List Nat) : unpad16 (padded_plaintext pt) = some pt := by
  have hp := padding_length_pos pt
  obtain ⟨k, hk⟩ : ∃ k, padding_length pt = k + 1 :=
    ⟨padding_length pt - 1, by omega⟩
  have hlast : (padded_plaintext pt).getLast? = some (padding_length pt) := by
    rw [padded_plaintext, hk]
    exact getLast?_append_replicate pt k (k + 1)
  have hlen := padded_plaintext_length pt
  have hdrop : (padded_plaintext pt).drop ((padded_plaintext pt).length - padding_length pt)
      = List.replicate (padding_length pt) (padding_length pt) := by
    rw [padded_plaintext]
    have : (padded_plaintext pt).length - padding_length pt = pt.length := by omega
    rw [padded_plaintext] at this
    rw [this, List.drop_left]
  have htake : (padded_plaintext pt).take ((padded_plaintext pt).length - padding_length pt)
      = pt := by
    rw [padded_plaintext]
    have : (padded_plaintext pt).length - padding_length pt = pt.length := by omega
    rw [padded_plaintext] at this
    rw [this, List.take_left]
  simp only [unpad16, hlast]
  rw [if_pos ⟨hp.1, hp.2, by omega, by rw [hdrop]; simp [List.all_eq_true]⟩, htake]

theorem b64DecChar_encChar : ∀ v : Nat, v < 64 → b64DecChar (b64EncChar v) = v := by decide

theorem b64EncChar_ne_eqChar : ∀ v : Nat, v < 64 → b64EncChar v ≠ eqChar := by decide

theorem b64EncChar_mem (n : Nat) : b64EncChar n ∈ b64Table := by
  rcases Nat.lt_or_ge n b64Table.length with h | h
  · rw [b64EncChar, List.getD_eq_getElem?_getD, List.getElem?_eq_getElem h]
    exact List.getElem_mem h
  · rw [b64EncChar, List.getD_eq_getElem?_getD, List.getElem?_eq_none h]
    decide

theorem b64_roundtrip (bs : List Nat) (h : validB bs) : b64Decode (b64Encode bs) = bs := by
  induction bs using b64Encode.induct with
  | case1 a b c rest ih =>
    have ha : a < 256 := h a (by simp)
    have hb : b < 256 := h b (by simp)
    have hc : c < 256 := h c (by simp)
    rw [b64Encode, b64Decode]
    rw [if_neg (b64EncChar_ne_eqChar _ (by omega)),
      if_neg (b64EncChar_ne_eqChar _ (by omega))]
    rw [b64DecChar_encChar _ (by omega), b64DecChar_encChar _ (by omega),
      b64DecChar_encChar _ (by omega), b64DecChar_encChar _ (by omega)]
    rw [ih (fun x hx => h x (by simp [hx]))]
    have e1 : a / 4 * 4 + (a % 4 * 16 + b / 16) / 16 = a := by omega
    have e2 : (a % 4 * 16 + b / 16) % 16 * 16 + (b % 16 * 4 + c / 64) / 4 = b := by omega
    have e3 : (b % 16 * 4 + c / 64) % 4 * 64 + c % 64 = c := by omega
    rw [e1, e2, e3]
  | case2 a b =>
    have ha : a < 256 := h a (by simp)
    have hb : b < 256 := h b (by simp)
    rw [b64Encode, b64Decode]
    rw [if_neg (b64EncChar_ne_eqChar _ (by omega)), if_pos rfl]
    rw [b64DecChar_encChar _ (by omega), b64DecChar_encChar _ (by omega),
      b64DecChar_encChar _ (by omega)]
    have e1 : a / 4 * 4 + (a % 4 * 16 + b / 16) / 16 = a := by omega
    have e2 : (a % 4 * 16 + b / 16) % 16 * 16 + (b % 16 * 4) / 4 = b := by omega
    rw [e1, e2]
  | case3 a =>
    have ha : a < 256 := h a (by simp)
    rw [b64Encode, b64Decode]
    rw [if_pos rfl]
    rw [b64DecChar_encChar _ (by omega), b64DecChar_encChar _ (by omega)]
    have e1 : a / 4 * 4 + (a % 4 * 16) / 16 = a := by omega
    rw [e1]
  | case4 => rfl

theorem b64Encode_inj (x y : List Nat) (hx : validB x) (hy : validB y)
    (h : b64Encode x = b64Encode y) : x = y := by
  rw [← b64_roundtrip x hx, ← b64_roundtrip y hy, h]

theorem cbcEnc_props (E : List Nat → List Nat)
    (hE : ∀ b, b.length = 16 → validB b → (E b).length = 16 ∧ validB (E b)) :
    ∀ (blocks : List (List Nat)) (prev : List Nat), prev.length = 16 → validB prev →
      (∀ b ∈ blocks, b.length = 16 ∧ validB b) →
      ∀ c ∈ cbcEnc E prev blocks, c.length = 16 ∧ validB c := by
  intro blocks
  induction blocks with
  | nil => intro prev _ _ _ c hc; simp [cbcEnc] at hc
  | cons b bs ih =>
    intro prev hp hpv hbl c hc
    have hb := hbl b (List.mem_cons_self b bs)
    have hxlen : (xorBytes prev b).length = 16 := by simp [xorBytes_length, hp, hb.1]
    have hxv : validB (xorBytes prev b) := xorBytes_valid prev b hpv hb.2
    have hc0 := hE (xorBytes prev b) hxlen hxv
    simp only [cbcEnc, List.mem_cons] at hc
    rcases hc with rfl | hc
    · exact hc0
    · exact ih (E (xorBytes prev b)) hc0.1 hc0.2
        (fun x hx => hbl x (List.mem_cons_of_mem b hx)) c hc

theorem cbcEnc_count (E : List Nat → List Nat) :
    ∀ (blocks : List (List Nat)) (prev : List Nat),
      (cbcEnc E prev blocks).length = blocks.length := by
  intro blocks
  induction blocks with
  | nil => intro prev; rfl
  | cons b bs ih => intro prev; simp only [cbcEnc, List.length_cons, ih]

theorem flatten_length_16 (bs : List (List Nat)) (h : ∀ b ∈ bs, b.length = 16) :
    bs.flatten.length = 16 * bs.length := by
  induction bs with
  | nil => simp
  | cons b rest ih =>
    have hb : b.length = 16 := h b (List.mem_cons_self b rest)
    have hr := ih (fun x hx => h x (List.mem_cons_of_mem b hx))
    simp only [List.flatten_cons, List.length_append, List.length_cons, hb, hr]
    ring

theorem cbcDec_cbcEnc (E D : List Nat → List Nat)
    (hE : ∀ b, b.length = 16 → validB b → (E b).length = 16 ∧ validB (E b))
    (hInv : ∀ b, b.length = 16 → validB b → D (E b) = b) :
    ∀ (blocks : List (List Nat)) (prev : List Nat), prev.length = 16 → validB prev →
      (∀ b ∈ blocks, b.length = 16 ∧ validB b) →
      cbcDec D prev (cbcEnc E prev blocks) = blocks := by
  intro blocks
  induction blocks with
  | nil => intro prev _ _ _; rfl
  | cons b bs ih =>
    intro prev hp hpv hbl
    have hb := hbl b (List.mem_cons_self b bs)
    have hxlen : (xorBytes prev b).length = 16 := by simp [xorBytes_length, hp, hb.1]
    have hxv := xorBytes_valid prev b hpv hb.2
    have hEc := hE _ hxlen hxv
    simp only [cbcEnc, cbcDec]
    rw [hInv _ hxlen hxv, xorBytes_cancel prev b (by omega),
      ih (E (xorBytes prev b)) hEc.1 hEc.2 (fun x hx => hbl x (List.mem_cons_of_mem b hx))]

theorem padded_blocks_props (pt : List Nat) (hpt : validB pt) :
    ∀ b ∈ toBlocks16 (padded_plaintext pt), b.length = 16 ∧ validB b :=
  fun b hb => ⟨toBlocks16_length _ (padded_plaintext_mod pt) b hb,
    toBlocks16_valid _ (padded_plaintext_valid pt hpt) b hb⟩

theorem encrypted_length_valid (E : List Nat → List Nat)
    (hE : ∀ b, b.length = 16 → validB b → (E b).length = 16 ∧ validB (E b))
    (iv pt : List Nat) (hiv : iv.length = 16) (hivv : validB iv) (hpt : validB pt) :
    (encrypted E iv pt).length = (padded_plaintext pt).length ∧ validB (encrypted E iv pt) := by
  have hctb := cbcEnc_props E hE (toBlocks16 (padded_plaintext pt)) iv hiv hivv
    (padded_blocks_props pt hpt)
  constructor
  · rw [encrypted, flatten_length_16 _ (fun b hb => (hctb b hb).1), cbcEnc_count,
      ← flatten_length_16 _ (toBlocks16_length _ (padded_plaintext_mod pt)), toBlocks16_flatten]
  · intro x hx
    rw [encrypted] at hx
    obtain ⟨l, hl, hxl⟩ := List.mem_flatten.1 hx
    exact (hctb l hl).2 x hxl

theorem decrypt_encrypted (E D : List Nat → List Nat)
    (hE : ∀ b, b.length = 16 → validB b → (E b).length = 16 ∧ validB (E b))
    (hInv : ∀ b, b.length = 16 → validB b → D (E b) = b)
    (iv pt : List Nat) (hiv : iv.length = 16) (hivv : validB iv) (hpt : validB pt) :
    unpad16 ((cbcDec D iv (toBlocks16 (encrypted E iv pt))).flatten) = some pt := by
  have hctb := cbcEnc_props E hE (toBlocks16 (padded_plaintext pt)) iv hiv hivv
    (padded_blocks_props pt hpt)
  rw [encrypted, toBlocks16_flatten_inv _ (fun b hb => (hctb b hb).1),
    cbcDec_cbcEnc E D hE hInv _ iv hiv hivv (padded_blocks_props pt hpt),
    toBlocks16_flatten, unpad16_padded]

theorem combined_valid (E : List Nat → List Nat)
    (hE : ∀ b, b.length = 16 → validB b → (E b).length = 16 ∧ validB (E b))
    (iv pt : List Nat) (hiv : iv.length = 16) (hivv : validB iv) (hpt : validB pt) :
    validB (combined E iv pt) := by
  intro x hx
  rcases List.mem_append.1 hx with hx | hx
  · exact hivv x hx
  · exact (encrypted_length_valid E hE iv pt hiv hivv hpt).2 x hx

theorem revCipher_props (key b : List Nat) (h1 : b.length = 16) (h2 : validB b) :
    (revCipher key b).length = 16 ∧ validB (revCipher key b) := by
  refine ⟨by simp [revCipher, h1], ?_⟩
  intro x hx
  simp only [revCipher, List.mem_reverse] at hx
  exact h2 x hx

theorem revCipher_inv (key b : List Nat) : revCipher key (revCipher key b) = b := by
  simp [revCipher]

theorem b64Char_ok (n : Nat) :
    ((b64Table.contains (b64EncChar n) || b64EncChar n == eqChar)
      && !(b64EncChar n == squote)) = true := by
  have hm := b64EncChar_mem n
  have hcontains : b64Table.contains (b64EncChar n) = true := by simpa using hm
  have hsq : b64EncChar n ≠ squote := by
    intro h
    rw [h] at hm
    exact absurd hm (by decide)
  simp [hcontains, hsq, hm]

theorem eqChar_ok :
    ((b64Table.contains eqChar || eqChar == eqChar) && !(eqChar == squote)) = true := by decide

theorem b64_all_ok (bs : List Nat) :
    ((b64Encode bs).all fun c => (b64Table.contains c || c == eqChar)
      && !(c == squote)) = true := by
  induction bs using b64Encode.induct with
  | case1 a b c rest ih =>
    rw [b64Encode]
    simp only [List.all_cons, b64Char_ok, Bool.true_and, ih]
  | case2 a b =>
    rw [b64Encode]
    simp only [List.all_cons, List.all_nil, b64Char_ok, eqChar_ok, Bool.true_and, Bool.and_true]
  | case3 a =>
    rw [b64Encode]
    simp only [List.all_cons, List.all_nil, b64Char_ok, eqChar_ok, Bool.true_and, Bool.and_true]
  | case4 => rfl

/-! ## Claim theorems -/

/-- C1: Round-trip — for every plaintext string `T` and passphrase, decrypting
the encryptor's output bundle (base64 of IV ‖ AES-CBC ciphertext of the
PKCS#7-padded `T`, key = SHA-256 of the passphrase) with the same passphrase
recovers exactly the UTF-8 bytes of `T`.  The AES block permutation `aes` and
its inverse `aesInv` are abstract, assumed length- and byte-preserving and
mutually inverse on 16-byte blocks. -/
theorem enc_dec_roundtrip (aes aesInv : List Nat → List Nat → List Nat)
    (hE : ∀ key b, b.length = 16 → validB b → (aes key b).length = 16 ∧ validB (aes key b))
    (hInv : ∀ key b, b.length = 16 → validB b → aesInv key (aes key b) = b)
    (passphrase T : String) (iv : List Nat) (hiv : iv.length = 16) (hivv : validB iv) :
    decryptPipeline aesInv passphrase (encrypted_base64 aes passphrase iv (strBytes T))
      = some (strBytes T) := by
  have hpt := strBytes_valid T
  have hcv := combined_valid (aes (key_bytes passphrase)) (hE _) iv (strBytes T) hiv hivv hpt
  simp only [decryptPipeline, encrypted_base64]
  rw [b64_roundtrip _ hcv, combined, List.take_left' hiv, List.drop_left' hiv]
  exact decrypt_encrypted _ _ (hE _) (hInv _) iv (strBytes T) hiv hivv hpt

theorem enc_dec_roundtrip_witness :
    decryptPipeline revCipher "pw"
      (encrypted_base64 revCipher "pw" (List.replicate 16 7) (strBytes "sk-or-v1-test"))
      = some (strBytes "sk-or-v1-test") :=
  enc_dec_roundtrip revCipher revCipher revCipher_props
    (fun key b _ _ => revCipher_inv key b)
    "pw" "sk-or-v1-test" (List.replicate 16 7) (by decide) (by decide)

/-- C2: Padding boundary — for every plaintext whose byte length is an exact
multiple of 16, the padding step appends a full 16-byte block of bytes of
value 16 (the naive formula `16 - len % 16` yields 16, not 0, there). -/
theorem padding_full_block (pt : List Nat) (h : pt.length % 16 = 0) :
    padded_plaintext pt = pt ++ List.replicate 16 16 := by
  have hp : padding_length pt = 16 := by simp only [padding_length]; omega
  rw [padded_plaintext, hp]

theorem padding_full_block_witness :
    (List.replicate 32 7 : List Nat).length % 16 = 0 ∧
      padded_plaintext (List.replicate 32 7) = List.replicate 32 7 ++ List.replicate 16 16 :=
  ⟨by decide, padding_full_block _ (by decide)⟩

/-- C3: Padding step semantics — for every plaintext byte string, the program
computes `padding_length = 16 - (len % 16)` and appends exactly that many
bytes, each of that value, to form the padded plaintext. -/
theorem padding_step_semantics (pt : List Nat) :
    padding_length pt = 16 - pt.length % 16 ∧
    padded_plaintext pt = pt ++ List.replicate (padding_length pt) (padding_length pt) ∧
    (padded_plaintext pt).length = pt.length + padding_length pt ∧
    (padded_plaintext pt).drop pt.length
      = List.replicate (padding_length pt) (padding_length pt) :=
  ⟨rfl, rfl, padded_plaintext_length pt, List.drop_left pt _⟩

/-- C4: Bundle length invariant — the ciphertext has the byte length of the
padded plaintext, the pre-base64 bundle has length 16 (IV) + that, and the
padded length is a positive multiple of 16. -/
theorem bundle_length_invariant (E : List Nat → List Nat)
    (hE : ∀ b, b.length = 16 → validB b → (E b).length = 16 ∧ validB (E b))
    (iv pt : List Nat) (hiv : iv.length = 16) (hivv : validB iv) (hpt : validB pt) :
    (encrypted E iv pt).length = (padded_plaintext pt).length ∧
    (combined E iv pt).length = 16 + (padded_plaintext pt).length ∧
    (padded_plaintext pt).length % 16 = 0 ∧ 0 < (padded_plaintext pt).length := by
  have hel := encrypted_length_valid E hE iv pt hiv hivv hpt
  refine ⟨hel.1, ?_, padded_plaintext_mod pt, ?_⟩
  · rw [combined, List.length_append, hiv, hel.1]
  · rw [padded_plaintext_length]
    have := padding_length_pos pt
    omega

theorem bundle_length_invariant_witness :
    (encrypted (revCipher []) (List.replicate 16 0) [1, 2, 3]).length
        = (padded_plaintext [1, 2, 3]).length ∧
    (combined (revCipher []) (List.replicate 16 0) [1, 2, 3]).length
        = 16 + (padded_plaintext [1, 2, 3]).length ∧
    (padded_plaintext [1, 2, 3]).length % 16 = 0 ∧
    0 < (padded_plaintext ([1, 2, 3] : List Nat)).length :=
  bundle_length_invariant (revCipher []) (revCipher_props [])
    (List.replicate 16 0) [1, 2, 3] (by decide) (by decide) (by decide)

/-- C5: Assembly and encoding order — the printed encrypted value decodes from
base64 to exactly the 16-byte IV followed immediately by the ciphertext
bytes. -/
theorem assembly_encoding_order (aes : List Nat → List Nat → List Nat)
    (hE : ∀ key b, b.length = 16 → validB b → (aes key b).length = 16 ∧ validB (aes key b))
    (secret : String) (iv pt : List Nat) (hiv : iv.length = 16) (hivv : validB iv)
    (hpt : validB pt) :
    b64Decode (encrypted_base64 aes secret iv pt)
      = iv ++ encrypted (aes (key_bytes secret)) iv pt := by
  have hcv := combined_valid (aes (key_bytes secret)) (hE _) iv pt hiv hivv hpt
  rw [encrypted_base64, b64_roundtrip _ hcv, combined]

theorem assembly_encoding_order_witness :
    b64Decode (encrypted_base64 revCipher "pw" (List.replicate 16 0) [5])
      = List.replicate 16 0 ++ encrypted (revCipher (key_bytes "pw")) (List.replicate 16 0) [5] :=
  assembly_encoding_order revCipher revCipher_props "pw"
    (List.replicate 16 0) [5] (by decide) (by decide) (by decide)

/-- C6 (counterexample): the claim says the cipher key is 128 bits wide, but the
key handed to the block cipher is the 32-byte SHA-256 digest — 256 bits. -/
theorem key_width_counterexample : ¬ (8 * (key_bytes SECRET).length = 128) := by
  rw [key_bytes_length]
  decide

/-- C6 (amended): the encryption step encrypts the padded plaintext with a
256-bit-key block cipher (AES-256) in CBC mode, using as key the 32-byte
SHA-256 hash of the UTF-8-encoded passphrase and the generated IV. -/
theorem cipher_key_is_256_bit (secret : String) (aes : List Nat → List Nat → List Nat)
    (iv pt : List Nat) :
    (key_bytes secret).length = 32 ∧ 8 * (key_bytes secret).length = 256 ∧
    key_bytes secret = sha256 (strBytes secret) ∧
    encrypted_base64 aes secret iv pt
      = b64Encode (iv ++ (cbcEnc (aes (sha256 (strBytes secret))) iv
          (toBlocks16 (padded_plaintext pt))).flatten) :=
  ⟨key_bytes_length secret, by rw [key_bytes_length], rfl, rfl⟩

/-- C7: Determinism of key derivation — the key is the pure function
`sha256 ∘ strBytes` of the passphrase (so any two runs with the same
passphrase use the same key), and its output is 32 bytes. -/
theorem key_derivation_deterministic (P : String) :
    key_bytes P = sha256 (strBytes P) ∧ (key_bytes P).length = 32 :=
  ⟨rfl, key_bytes_length P⟩

/-- C8: Non-determinism via IV — two runs encrypting the same plaintext under
the same passphrase produce different ciphertext bundles whenever the two
16-byte IVs differ. -/
theorem iv_changes_bundle (aes : List Nat → List Nat → List Nat)
    (hE : ∀ key b, b.length = 16 → validB b → (aes key b).length = 16 ∧ validB (aes key b))
    (secret : String) (pt iv1 iv2 : List Nat)
    (h1 : iv1.length = 16) (h2 : iv2.length = 16)
    (hv1 : validB iv1) (hv2 : validB iv2) (hpt : validB pt) (hne : iv1 ≠ iv2) :
    encrypted_base64 aes secret iv1 pt ≠ encrypted_base64 aes secret iv2 pt := by
  intro heq
  simp only [encrypted_base64] at heq
  have hc := b64Encode_inj _ _
    (combined_valid _ (hE _) iv1 pt h1 hv1 hpt)
    (combined_valid _ (hE _) iv2 pt h2 hv2 hpt) heq
  apply hne
  have htk := congrArg (List.take 16) hc
  rwa [combined, combined, List.take_left' h1, List.take_left' h2] at htk

theorem iv_changes_bundle_witness :
    encrypted_base64 revCipher "pw" (List.replicate 16 0) [9]
      ≠ encrypted_base64 revCipher "pw" (List.replicate 16 1) [9] :=
  iv_changes_bundle revCipher revCipher_props "pw" [9]
    (List.replicate 16 0) (List.replicate 16 1)
    (by decide) (by decide) (by decide) (by decide) (by decide) (by decide)

/-- C9: Output contents — the text written to standard output contains the
banner, the `INSERT ... ON CONFLICT ... DO UPDATE` statement targeting
`api_keys(service_name, encrypted_value, description, updated_at)` with the
base64 ciphertext embedded as the `encrypted_value` literal, and the
verification `SELECT` query. -/
theorem script_output_contents (b64 : String) :
    bannerLine ∈ scriptOutput b64 ∧
    "INSERT INTO api_keys (service_name, encrypted_value, description, updated_at)"
      ∈ scriptOutput b64 ∧
    ("VALUES ('openrouter', '" ++ b64 ++ "', 'OpenRouter API Key', CURRENT_TIMESTAMP)")
      ∈ scriptOutput b64 ∧
    "ON CONFLICT (service_name)" ∈ scriptOutput b64 ∧
    "DO UPDATE SET encrypted_value = EXCLUDED.encrypted_value, updated_at = CURRENT_TIMESTAMP;"
      ∈ scriptOutput b64 ∧
    "SELECT service_name, description, updated_at FROM api_keys;" ∈ scriptOutput b64 := by
  refine ⟨?_, ?_, ?_, ?_, ?_, ?_⟩ <;> simp [scriptOutput]

/-- C10 (implicit): SQL literal well-formedness — every character of the base64
output is in the base64 alphabet or `=`, and in particular is never a single
quote, so the generated SQL string literal is always well-formed. -/
theorem sql_literal_wellformed (bs : List Nat) :
    ((b64Encode bs).all fun c => (b64Table.contains c || c == eqChar)
      && !(c == squote)) = true ∧
    (b64Encode bs).contains squote = false := by
  refine ⟨b64_all_ok bs, ?_⟩
  by_contra hcontains
  have hmem : squote ∈ b64Encode bs := by
    simpa using eq_true_of_ne_false hcontains
  have := (List.all_eq_true.1 (b64_all_ok bs)) squote hmem
  simp at this

/-- SHA-256 test vector: the digest of the empty message. -/
theorem sha256_empty_vector :
    sha256 [] = [227, 176, 196, 66, 152, 252, 28, 20, 154, 251, 244, 200, 153, 111, 185, 36,
                 39, 174, 65, 228, 100, 155, 147, 76, 164, 149, 153, 27, 120, 82, 184, 85] := by
  rfl

/-- SHA-256 test vector: the digest of the three-byte message `abc`. -/
theorem sha256_abc_vector :
    sha256 (strBytes "abc") = [186, 120, 22, 191, 143, 1, 207, 234, 65, 65, 64, 222, 93, 174,
                               34, 35, 176, 3, 97, 163, 150, 23, 122, 156, 180, 16, 255, 97,
                               242, 0, 21, 173] := by
  rfl
